import Mathlib

set_option maxHeartbeats 1000000

/-!
Shallow embedding and verification of the forward-pass components of
`pyg_material` / `lcaonet`:

* `BaseGNN.get_triplets` and `BaseGNN.calc_atomic_distances`
  (`pyg_material/model/base.py`),
* `EmbedElec`, `EmbedCoeffs`, `LCAOInteraction`, `LCAOOut` and the
  `LCAONet.__init__` configuration check (`lcaonet/model/lcaonet.py`).

Tensors are embedded as lists (for the node / edge / orbital axes whose
lengths matter) of feature vectors `ℕ → ℚ` (feature axes are pointwise and
their extent is immaterial to the statements proved).  Learned linear maps,
activations and the floating-point-only operations (`torch.sigmoid`,
`F.normalize`) are abstract function parameters; structural index
manipulation (gather, einsum contractions over the orbital axis, scatter
reductions, broadcasting) is embedded concretely following the Python
source and the documented semantics of `torch_scatter.scatter` and PyTorch
broadcasting.
-/

/-- One emitted triplet of `BaseGNN.get_triplets`: node indices
`(ti, tj, tk)` (atoms i, j, k with j central) together with the edge indices
`ekj` (the edge k→j) and `eji` (the edge j→i).  The Python function returns
five parallel arrays `triple_idx_i/j/k, edge_idx_kj, edge_idx_ji`; here they
are one list of records, position-aligned with those arrays. -/
structure Tri where
  ti : ℕ
  tj : ℕ
  tk : ℕ
  ekj : ℕ
  eji : ℕ
deriving DecidableEq, Repr

/-- All incoming edges of node `j`: the entries `(edgeIndex, (src, tgt))` of
the edge list `l` whose target equals `j`, edge indices counted from `n`.
This realises one row `adj_t[j]` of the `SparseTensor` built in
`BaseGNN.get_triplets` (`row=idx_i, col=idx_j, value=arange(E)`): the stored
values are the edge indices of the edges targeting `j`. -/
def inEdgesFrom (n : ℕ) (l : List (ℕ × ℕ)) (j : ℕ) : List (ℕ × ℕ × ℕ) :=
  match l with
  | [] => []
  | e :: es =>
      if e.2 = j then (n, e) :: inEdgesFrom (n + 1) es j else inEdgesFrom (n + 1) es j

/-- For each edge `e = (j, i)` of `rem` (edge index counted from `n`), pair it
with every edge `(k → j)` of `all` targeting its source `j`.  This is the
`adj_t[idx_j]` row-gather plus `repeat_interleave` step of
`BaseGNN.get_triplets`, before the `i ≠ k` mask. -/
def triFrom (n : ℕ) (rem all : List (ℕ × ℕ)) : List Tri :=
  match rem with
  | [] => []
  | e :: es =>
      (inEdgesFrom 0 all e.1).map (fun q => ⟨e.2, e.1, q.2.1, q.1, n⟩) ++
        triFrom (n + 1) es all

/-- Shallow embedding of `BaseGNN.get_triplets`.  The edge list is given as
`(source j, target i)` pairs (the Python code unpacks
`idx_j, idx_i = edge_index`, i.e. row 0 is the source, row 1 the target).
All `(edge k→j, edge j→i)` pairs are enumerated and the pairs with `i = k`
are removed (`mask = triple_idx_i != triple_idx_k`). -/
def getTriplets (edges : List (ℕ × ℕ)) : List Tri :=
  (triFrom 0 edges edges).filter (fun t => t.ti ≠ t.tk)

/-- In-degree of node `j`: number of edges whose target is `j`. -/
def indeg (edges : List (ℕ × ℕ)) (j : ℕ) : ℕ :=
  (edges.filter (fun e => e.2 = j)).length

/-- Out-degree of node `j`: number of edges whose source is `j`. -/
def outdeg (edges : List (ℕ × ℕ)) (j : ℕ) : ℕ :=
  (edges.filter (fun e => e.1 = j)).length

/-- Number of `(edge k→j, edge j→i)` pairs whose outer atoms coincide
(`k = i`): for each edge `b = (j, i)`, the number of edges `a` with target
`j` and source `i`. -/
def numCollisions (edges : List (ℕ × ℕ)) : ℕ :=
  (edges.map (fun b => (edges.filter (fun a => a.2 = b.1 ∧ a.1 = b.2)).length)).sum

/-- The set of node-index triples `(i, j, k)` emitted by `get_triplets`. -/
def tripletNodes (edges : List (ℕ × ℕ)) : Finset (ℕ × ℕ × ℕ) :=
  ((getTriplets edges).map (fun t => (t.ti, t.tj, t.tk))).toFinset

/-- Per-edge displacement vector of `BaseGNN.calc_atomic_distances`:
`position[target] - position[source] + shift · lattice[batch[source]]`,
where the `einsum("ni,nij->nj", shift, lattice[edge_batch])` contraction is
`fun c => ∑ r, shift e r * lattice (batch (src e)) r c` and
`edge_batch = batch[edge_src]`. -/
def edgeVec (pos : ℕ → EuclideanSpace ℝ (Fin 3))
    (lattice : ℕ → Fin 3 → Fin 3 → ℝ) (shift : ℕ → Fin 3 → ℝ)
    (batch : ℕ → ℕ) (src tgt : ℕ → ℕ) (e : ℕ) : Fin 3 → ℝ :=
  fun c => pos (tgt e) c - pos (src e) c
    + ∑ r, shift e r * lattice (batch (src e)) r c

/-- Shallow embedding of `BaseGNN.calc_atomic_distances`: the per-edge
scalar `torch.norm(edge_vec, dim=1)`, i.e. the square root of the sum of
the squared components of the displacement vector. -/
noncomputable def calc_atomic_distances (pos : ℕ → EuclideanSpace ℝ (Fin 3))
    (lattice : ℕ → Fin 3 → Fin 3 → ℝ) (shift : ℕ → Fin 3 → ℝ)
    (batch : ℕ → ℕ) (src tgt : ℕ → ℕ) (e : ℕ) : ℝ :=
  Real.sqrt (∑ c, (edgeVec pos lattice shift batch src tgt e c) ^ 2)

/-- Feature vectors: one rational per feature coordinate.  Feature axes of
the Python tensors are pointwise, so their extent is left implicit. -/
abbrev Vec : Type := ℕ → ℚ

/-- The all-zero feature vector. -/
def vzero : Vec := fun _ => 0

/-- Add vector `v` into position `c` of the buffer (no-op out of range). -/
def setAdd : List Vec → ℕ → Vec → List Vec
  | [], _, _ => []
  | x :: xs, 0, v => (fun d => x d + v d) :: xs
  | x :: xs, c + 1, v => x :: setAdd xs c v

/-- `torch_scatter.scatter(src, index, dim=0, dim_size=B, reduce="sum")`:
start from a zero buffer of `B` rows and add row `vals[t]` into row
`idx[t]` for every position `t`. -/
def scatterSum (vals : List Vec) (idx : List ℕ) (B : ℕ) : List Vec :=
  (idx.zip vals).foldl (fun buf p => setAdd buf p.1 p.2) (List.replicate B vzero)

/-- The default `dim_size` of `torch_scatter.scatter` along `dim=0`:
`index.max() + 1` when the index tensor is nonempty, otherwise `0`. -/
def dimSizeTorch (idx : List ℕ) : ℕ :=
  if idx.isEmpty then 0 else idx.foldr max 0 + 1

/-- `torch_scatter` `reduce="mean"`: the scatter-sum divided rowwise by the
number of contributions, clamped below by one. -/
def scatterMean (vals : List Vec) (idx : List ℕ) (B : ℕ) : List Vec :=
  ((scatterSum vals idx B).zip
    (scatterSum (vals.map (fun _ => fun _ => (1 : ℚ))) idx B)).map
    (fun p => fun d => p.1 d / max 1 (p.2 d))

/-- Shallow embedding of `LCAOOut.forward`: apply the output MLP `out_lin`
to every node embedding, then reduce per structure.  With a batch index it
is `scatter(out, batch_idx, dim=0, reduce="sum"|"mean")` (default
`dim_size`); without one it is `out.sum(dim=0, keepdim=True)` or
`out.mean(dim=0, keepdim=True)`, one single row. -/
def LCAOOut_forward (outLin : Vec → Vec) (x : List Vec)
    (batchIdx : Option (List ℕ)) (isExtensive : Bool) : List Vec :=
  match batchIdx with
  | some bidx =>
      if isExtensive then scatterSum (x.map outLin) bidx (dimSizeTorch bidx)
      else scatterMean (x.map outLin) bidx (dimSizeTorch bidx)
  | none =>
      if isExtensive then [fun d => ((x.map outLin).map (fun v => v d)).sum]
      else [fun d => ((x.map outLin).map (fun v => v d)).sum / (x.length : ℚ)]

/-- PyTorch broadcasting of an elementwise sum along the leading (node)
dimension: the two sizes must be equal or one of them must be `1`; a size-1
operand is expanded to the other operand's size (including size `0`, which
yields an empty result).  `none` models the `RuntimeError` PyTorch raises
for incompatible sizes. -/
def broadcastAdd (a b : List Vec) : Option (List Vec) :=
  if a.length = b.length then
    some ((a.zip b).map (fun p => fun d => p.1 d + p.2 d))
  else if a.length = 1 then
    some (b.map (fun v => fun d => a.getD 0 vzero d + v d))
  else if b.length = 1 then
    some (a.map (fun v => fun d => v d + b.getD 0 vzero d))
  else none

/-- `torch.einsum("ed,edh->eh", s, c)` for a single edge or triplet: the
contraction over the orbital axis of per-orbital scalars `s` against
per-orbital feature vectors `c`. -/
def contractOrb : List ℚ → List Vec → Vec
  | s :: ss, c :: cs => fun d => s * c d + contractOrb ss cs d
  | _, _ => fun _ => 0

/-- The learned/parametric pieces of one `LCAOInteraction` layer.  The
learned MLPs (`node_weight` split in two by `torch.chunk`, `f_coeffs`,
`f_three`, `basis_weight`, `f_node` on the concatenated pair, `out_weight`)
and the floating-point-only primitives `torch.sigmoid` / `F.normalize` are
abstract functions; `convDim` is `conv_dim` (used by the `torch.chunk`
split of the valence half-channels) and `addValence` is `add_valence`. -/
structure LCAOInteractionP where
  convDim : ℕ
  addValence : Bool
  nodeWeight : Vec → Vec × Vec
  fCoeffs : Vec → Vec
  fThree : Vec → Vec
  basisWeight : Vec → Vec
  fNode : Vec → Vec → Vec
  outWeight : Vec → Vec
  sigmoidFn : ℚ → ℚ
  normalizeFn : Vec → Vec

/-- Shallow embedding of `LCAOInteraction.forward`, stage by stage in
source order: the `add_valence`/`valence_mask` configuration check; node
split `x, xk = chunk(node_weight(x), 2)`; `cji = f_coeffs(cji)`; the
cutoff rescaling `rb = rb * cutoff_w`; the per-triplet three-body
contraction gathered at `edge_idx_kj`, normalised, gated by
`sigmoid(xk[tri_idx_k])` and scatter-summed onto `edge_idx_ji`
(`dim_size=rb.size(0)`); the coefficient injection
`cji = cji + cji * three_body_w`; the two-body contraction against `rb`,
normalised and transformed; the per-edge messages gated by
`f_node(cat(x[idx_i], x[idx_j]))`; and the final residual update
`x_before + out_weight(scatter(msgs, idx_i, dim=0))`, where the scatter
uses the *default* `dim_size` and the sum uses PyTorch broadcasting. -/
def LCAOInteraction_forward (P : LCAOInteractionP) (x : List Vec)
    (cji : List (List Vec)) (valenceMask : Option (List (List Vec)))
    (cutoffW : Option (List ℚ)) (rb : List (List ℚ)) (shb : List (List ℚ))
    (idxI idxJ : List ℕ) (triIdxK edgeIdxKj edgeIdxJi : List ℕ) :
    Except String (List Vec) :=
  if P.addValence ∧ valenceMask.isNone then
    Except.error "valence_mask must be provided when add_valence=True"
  else
    let xs : List Vec := (x.map P.nodeWeight).map Prod.fst
    let xks : List Vec := (x.map P.nodeWeight).map Prod.snd
    let cji1 : List (List Vec) := cji.map (fun row => row.map P.fCoeffs)
    let rb1 : List (List ℚ) := match cutoffW with
      | some w => (rb.zip w).map (fun p => p.1.map (fun s => s * p.2))
      | none => rb
    let mask : List (List Vec) := valenceMask.getD []
    let tbw : List Vec := (List.range triIdxK.length).map (fun t =>
      let ekj := edgeIdxKj.getD t 0
      let rs : List ℚ := ((rb1.getD ekj []).zip (shb.getD t [])).map (fun p => p.1 * p.2)
      let ckj : List Vec := cji1.getD ekj []
      let tOrbs : Vec :=
        if P.addValence then
          fun d => contractOrb rs ckj d +
            contractOrb rs
              (((ckj.map (fun v => fun d2 => v (P.convDim + d2))).zip
                (mask.getD ekj [])).map (fun p => fun d2 => p.1 d2 * p.2 d2)) d
        else contractOrb rs ckj
      fun d => P.normalizeFn tOrbs d
        * P.sigmoidFn (xks.getD (triIdxK.getD t 0) vzero d))
    let threeW : List Vec := (scatterSum tbw edgeIdxJi rb.length).map P.fThree
    let cji2 : List (List Vec) := (cji1.zip threeW).map
      (fun p => p.1.map (fun c => fun d => c d + c d * p.2 d))
    let lcaoRaw : List Vec :=
      if P.addValence then
        ((rb1.zip cji2).zip mask).map (fun p =>
          fun d => contractOrb p.1.1 p.1.2 d +
            contractOrb p.1.1
              (((p.1.2.map (fun v => fun d2 => v (P.convDim + d2))).zip p.2).map
                (fun q => fun d2 => q.1 d2 * q.2 d2)) d)
      else (rb1.zip cji2).map (fun p => contractOrb p.1 p.2)
    let lcaoW : List Vec := lcaoRaw.map (fun v => P.basisWeight (P.normalizeFn v))
    let msgs : List Vec := ((idxI.zip idxJ).zip lcaoW).map (fun p =>
      fun d => p.2 d * P.fNode (xs.getD p.1.1 vzero) (xs.getD p.1.2 vzero) d)
    let out : List Vec := (scatterSum msgs idxI (dimSizeTorch idxI)).map P.outWeight
    match broadcastAdd x out with
    | some res => Except.ok res
    | none => Except.error "The size of tensor a must match the size of tensor b at non-singleton dimension 0"

/-- A concrete parameter record used to evaluate the layer at inputs. -/
def Ptriv : LCAOInteractionP :=
  ⟨1, false, fun v => (v, v), fun v => v, fun v => v, fun v => v,
    fun a b => fun d => a d + b d, fun v => v, fun q => q, fun v => v⟩

/-- A `Dense` layer: `W·v + bias` with input dimension `dIn`
(`lcaonet.nn.Dense`, a `torch.nn.Linear`). -/
def denseLayer (W : ℕ → ℕ → ℚ) (bias : Option (ℕ → ℚ)) (dIn : ℕ) (v : Vec) : Vec :=
  fun c => (∑ r in Finset.range dIn, W c r * v r)
    + (match bias with | some b => b c | none => 0)

/-- An elementwise activation. -/
def mapAct (act : ℚ → ℚ) (v : Vec) : Vec := fun c => act (v c)

/-- `EmbedCoeffs.f_e`:
`Dense(e_dim, hidden, bias=False) → act → Dense(hidden, hidden, bias=False) → act`.
Both layers are bias-free (`# No bias is used to keep 0 coefficient vectors
at 0` is the design noted in the source). -/
def fE (act : ℚ → ℚ) (W1 W2 : ℕ → ℕ → ℚ) (eDim hid : ℕ) (v : Vec) : Vec :=
  mapAct act (denseLayer W2 none hid (mapAct act (denseLayer W1 none eDim v)))

/-- `EmbedCoeffs.f_z`:
`Dense(2*z_dim, hidden, bias=True) → act → Dense(hidden, hidden, bias=True) → act`. -/
def fZ (act : ℚ → ℚ) (Wa Wb : ℕ → ℕ → ℚ) (ba bb : ℕ → ℚ) (zDim hid : ℕ)
    (v : Vec) : Vec :=
  mapAct act (denseLayer Wb (some bb) hid (mapAct act (denseLayer Wa (some ba) (2 * zDim) v)))

/-- `torch.cat([a, b], dim=-1)` on feature vectors, `a` of extent `dimA`. -/
def vcat (dimA : ℕ) (a b : Vec) : Vec :=
  fun c => if c < dimA then a c else b (c - dimA)

/-- Shallow embedding of `EmbedCoeffs.forward`:
`z = f_z(cat(z_embed[idx_i], z_embed[idx_j]))`, `e = f_e(e_embed)[idx_j]`,
returning `e + e * z.unsqueeze(1)` — one row of orbital vectors per edge. -/
def EmbedCoeffs_forward (act : ℚ → ℚ) (Wa Wb : ℕ → ℕ → ℚ) (ba bb : ℕ → ℚ)
    (W1 W2 : ℕ → ℕ → ℚ) (zDim eDim hid : ℕ) (zEmbed : List Vec)
    (eEmbed : List (List Vec)) (idxI idxJ : List ℕ) : List (List Vec) :=
  let eT : List (List Vec) := eEmbed.map (fun row => row.map (fE act W1 W2 eDim hid))
  (idxI.zip idxJ).map (fun p =>
    let gate : Vec := fZ act Wa Wb ba bb zDim hid
      (vcat zDim (zEmbed.getD p.1 vzero) (zEmbed.getD p.2 vzero))
    (eT.getD p.2 []).map (fun ev => fun c => ev c + ev c * gate c))

/-- The `EmbedElec` per-orbital embedding tables after `reset_parameters`:
when `extend_orb = False` each `nn.Embedding` is built with
`padding_idx=0` and `_fill_padding_idx_with_zero()` forces row `0` to the
zero vector on every reset; otherwise the freshly initialised weights `w`
are kept as they are. -/
def embedElecReset (extendOrb : Bool) (w : ℕ → ℕ → Vec) : ℕ → ℕ → Vec :=
  fun o idx => if extendOrb = false ∧ idx = 0 then vzero else w o idx

/-- Shallow embedding of `EmbedElec.forward`: for atom `n` and orbital slot
`o`, the result is row `elec_table[z_n][o]` of the `o`-th embedding table
(`e_embed[n][o] = e_embeds[o](elec[z_n][o])`). -/
def EmbedElec_forward (nOrb : ℕ) (elec : ℕ → ℕ → ℕ) (weights : ℕ → ℕ → Vec)
    (z : List ℕ) : List (List Vec) :=
  z.map (fun zn => (List.range nOrb).map (fun o => weights o (elec zn o)))

/-- The configuration-validation prefix of `LCAONet.__init__`: requesting a
cutoff network (`cutoff_net is not None`) without a cutoff radius
(`cutoff is None`) raises a `ValueError` before any layer of the model is
constructed. -/
def LCAONet_init_check (cutoffNet : Option String) (cutoff : Option ℚ) :
    Except String Unit :=
  if cutoffNet.isSome ∧ cutoff.isNone then
    Except.error "cutoff must be specified when cutoff_net is used"
  else Except.ok ()

example :
    getTriplets [(0, 1), (1, 0), (1, 2), (2, 1)] =
      [⟨0, 1, 2, 3, 1⟩, ⟨2, 1, 0, 0, 2⟩] := by decide

example : numCollisions [(0, 1), (1, 0), (1, 2), (2, 1)] = 4 := by decide

theorem mem_inEdgesFrom (j : ℕ) (l : List (ℕ × ℕ)) :
    ∀ (n : ℕ) (q : ℕ × ℕ × ℕ),
      q ∈ inEdgesFrom n l j ↔
        ∃ m, l.get? m = some q.2 ∧ q.1 = n + m ∧ q.2.2 = j := by
  induction l with
  | nil => intro n q; simp [inEdgesFrom]
  | cons e es ih =>
    intro n q
    rw [inEdgesFrom]
    by_cases h : e.2 = j
    · rw [if_pos h, List.mem_cons, ih (n + 1) q]
      constructor
      · rintro (rfl | ⟨m, hm, hq, hj⟩)
        · exact ⟨0, by simp, by simp, h⟩
        · exact ⟨m + 1, by simpa using hm, by omega, hj⟩
      · rintro ⟨m, hm, hq, hj⟩
        match m with
        | 0 =>
          left
          obtain ⟨q1, q2⟩ := q
          simp only [List.get?] at hm
          obtain rfl : e = q2 := by simpa using hm
          simp only at hq
          simp [hq]
        | m + 1 =>
          right
          exact ⟨m, by simpa using hm, by omega, hj⟩
    · rw [if_neg h, ih (n + 1) q]
      constructor
      · rintro ⟨m, hm, hq, hj⟩
        exact ⟨m + 1, by simpa using hm, by omega, hj⟩
      · rintro ⟨m, hm, hq, hj⟩
        match m with
        | 0 =>
          obtain ⟨q1, q2⟩ := q
          obtain rfl : e = q2 := by simpa using hm
          simp only at hj
          exact absurd hj h
        | m + 1 =>
          exact ⟨m, by simpa using hm, by omega, hj⟩

theorem mem_triFrom (all : List (ℕ × ℕ)) (rem : List (ℕ × ℕ)) :
    ∀ (n : ℕ) (t : Tri),
      t ∈ triFrom n rem all ↔
        ∃ m, rem.get? m = some (t.tj, t.ti) ∧ t.eji = n + m ∧
          all.get? t.ekj = some (t.tk, t.tj) := by
  induction rem with
  | nil => intro n t; simp [triFrom]
  | cons e es ih =>
    intro n t
    rw [triFrom]
    rw [List.mem_append, List.mem_map, ih (n + 1) t]
    constructor
    · rintro (⟨q, hq, rfl⟩ | ⟨m, hm, he, hk⟩)
      · obtain ⟨m, hm, hq1, hq2⟩ := (mem_inEdgesFrom e.1 all 0 q).1 hq
        refine ⟨0, ?_, by simp, ?_⟩
        · simp
        · simp only [hq1, Nat.zero_add] at *
          rw [hm]
          obtain ⟨q1, q2, q3⟩ := q
          simp only at hq2
          simp [hq2]
      · exact ⟨m + 1, by simpa using hm, by omega, hk⟩
    · rintro ⟨m, hm, he, hk⟩
      match m with
      | 0 =>
        left
        obtain rfl : e = (t.tj, t.ti) := by simpa using hm
        refine ⟨(t.ekj, (t.tk, t.tj)), ?_, ?_⟩
        · exact (mem_inEdgesFrom _ all 0 _).2 ⟨t.ekj, hk, by omega, rfl⟩
        · simp only at he ⊢
          obtain ⟨ti, tj, tk, ekj, eji⟩ := t
          simp only at he ⊢
          simp [he]
      | m + 1 =>
        right
        exact ⟨m, by simpa using hm, by omega, hk⟩

/-- Characterisation of membership in `getTriplets`: a triplet record is
emitted exactly when its `eji` entry is the edge `(tj → ti)`, its `ekj`
entry is the edge `(tk → tj)`, and `ti ≠ tk`. -/
theorem mem_getTriplets (edges : List (ℕ × ℕ)) (t : Tri) :
    t ∈ getTriplets edges ↔
      edges.get? t.eji = some (t.tj, t.ti) ∧
        edges.get? t.ekj = some (t.tk, t.tj) ∧ t.ti ≠ t.tk := by
  unfold getTriplets
  rw [List.mem_filter, mem_triFrom edges edges 0 t]
  constructor
  · rintro ⟨⟨m, hm, he, hk⟩, hne⟩
    refine ⟨?_, hk, by simpa using hne⟩
    rwa [show t.eji = m by omega]
  · rintro ⟨h1, h2, h3⟩
    exact ⟨⟨t.eji, h1, by omega, h2⟩, by simpa using h3⟩

theorem inEdgesFrom_length (j : ℕ) (l : List (ℕ × ℕ)) :
    ∀ n, (inEdgesFrom n l j).length = indeg l j := by
  induction l with
  | nil => intro n; simp [inEdgesFrom, indeg]
  | cons e es ih =>
    intro n
    rw [inEdgesFrom]
    by_cases h : e.2 = j
    · rw [if_pos h]; simp [indeg, List.filter_cons, h, ih (n + 1)]
    · rw [if_neg h]; simp [indeg, List.filter_cons, h, ih (n + 1)]

theorem triFrom_length (all : List (ℕ × ℕ)) (rem : List (ℕ × ℕ)) :
    ∀ n, (triFrom n rem all).length = (rem.map (fun e => indeg all e.1)).sum := by
  induction rem with
  | nil => intro n; simp [triFrom]
  | cons e es ih =>
    intro n
    rw [triFrom]
    simp [List.length_append, inEdgesFrom_length, ih (n + 1)]

theorem sum_src_group (N : ℕ) (g : ℕ → ℕ) (l : List (ℕ × ℕ))
    (h : ∀ e ∈ l, e.1 < N) :
    (l.map (fun e => g e.1)).sum =
      ∑ j in Finset.range N, (l.filter (fun e => e.1 = j)).length * g j := by
  induction l with
  | nil => simp
  | cons e es ih =>
    have he : e.1 < N := h e (List.mem_cons_self e es)
    have ih2 := ih (fun a ha => h a (List.mem_cons_of_mem e ha))
    have hstep : ∀ j, ((e :: es).filter (fun a => a.1 = j)).length
        = (if e.1 = j then 1 else 0) + (es.filter (fun a => a.1 = j)).length := by
      intro j
      by_cases hj : e.1 = j
      · simp [List.filter_cons, hj]; omega
      · simp [List.filter_cons, hj]
    have hsum : ∑ j in Finset.range N, ((e :: es).filter (fun a => a.1 = j)).length * g j
        = (∑ j in Finset.range N, if e.1 = j then g j else 0)
          + ∑ j in Finset.range N, (es.filter (fun a => a.1 = j)).length * g j := by
      rw [← Finset.sum_add_distrib]
      refine Finset.sum_congr rfl (fun j _ => ?_)
      rw [hstep j, add_mul]
      by_cases hj : e.1 = j <;> simp [hj]
    rw [List.map_cons, List.sum_cons, ih2, hsum, Finset.sum_ite_eq,
      if_pos (Finset.mem_range.mpr he)]

theorem inEdgesFrom_filter_src (j i : ℕ) (l : List (ℕ × ℕ)) :
    ∀ n, ((inEdgesFrom n l j).filter (fun q => i = q.2.1)).length
      = (l.filter (fun a => a.2 = j ∧ a.1 = i)).length := by
  induction l with
  | nil => intro n; simp [inEdgesFrom]
  | cons e es ih =>
    intro n
    rw [inEdgesFrom]
    by_cases h2 : e.2 = j
    · rw [if_pos h2]
      by_cases h1 : e.1 = i
      · simp [List.filter_cons, h2, h1, ih (n + 1)]
      · have h1b : ¬ i = e.1 := fun hc => h1 hc.symm
        simp [List.filter_cons, h2, h1, h1b, ih (n + 1)]
    · rw [if_neg h2]
      simp [List.filter_cons, h2, ih (n + 1)]

theorem triFrom_collisions (all : List (ℕ × ℕ)) (rem : List (ℕ × ℕ)) :
    ∀ n, ((triFrom n rem all).filter (fun t => t.ti = t.tk)).length
      = (rem.map (fun b => (all.filter (fun a => a.2 = b.1 ∧ a.1 = b.2)).length)).sum := by
  induction rem with
  | nil => intro n; simp [triFrom]
  | cons e es ih =>
    intro n
    rw [triFrom, List.filter_append, List.length_append, ih (n + 1)]
    have hmap : (((inEdgesFrom 0 all e.1).map
          (fun q => (⟨e.2, e.1, q.2.1, q.1, n⟩ : Tri))).filter
            (fun t => t.ti = t.tk)).length
        = (all.filter (fun a => a.2 = e.1 ∧ a.1 = e.2)).length := by
      rw [← inEdgesFrom_filter_src e.1 e.2 all 0]
      rw [List.filter_map, List.length_map]
      rfl
    simp [hmap]

theorem length_filter_ne_split (l : List Tri) :
    (l.filter (fun t => t.ti ≠ t.tk)).length
      + (l.filter (fun t => t.ti = t.tk)).length = l.length := by
  induction l with
  | nil => rfl
  | cons t ts ih =>
    by_cases h : t.ti = t.tk
    · simp [List.filter_cons, h] at ih ⊢
      omega
    · simp [List.filter_cons, h] at ih ⊢
      omega

/-- C1: `get_triplets` emits exactly the ordered triplets `(i, j, k)` such
that an edge `(k→j)` and an edge `(j→i)` both exist and `i ≠ k`, and the
number of emitted triplets equals the sum over central nodes `j` of
`indegree(j) * outdegree(j)` minus the number of `(edge_kj, edge_ji)` pairs
whose outer atoms coincide. -/
theorem getTriplets_char_and_count (edges : List (ℕ × ℕ)) (N : ℕ)
    (h : ∀ e ∈ edges, e.1 < N ∧ e.2 < N) :
    (∀ i j k : ℕ,
        (∃ t ∈ getTriplets edges, t.ti = i ∧ t.tj = j ∧ t.tk = k) ↔
          ((k, j) ∈ edges ∧ (j, i) ∈ edges ∧ i ≠ k)) ∧
      (getTriplets edges).length =
        (∑ j in Finset.range N, indeg edges j * outdeg edges j)
          - numCollisions edges := by
  constructor
  · intro i j k
    constructor
    · rintro ⟨t, ht, rfl, rfl, rfl⟩
      obtain ⟨h1, h2, h3⟩ := (mem_getTriplets edges t).1 ht
      exact ⟨List.get?_mem h2, List.get?_mem h1, h3⟩
    · rintro ⟨hkj, hji, hne⟩
      obtain ⟨mkj, hmkj⟩ := List.get?_of_mem hkj
      obtain ⟨mji, hmji⟩ := List.get?_of_mem hji
      exact ⟨⟨i, j, k, mkj, mji⟩,
        (mem_getTriplets edges ⟨i, j, k, mkj, mji⟩).2 ⟨hmji, hmkj, hne⟩,
        rfl, rfl, rfl⟩
  · have hlen := triFrom_length edges edges 0
    have hgroup := sum_src_group N (fun j => indeg edges j) edges
      (fun e he => (h e he).1)
    have hsplit := length_filter_ne_split (triFrom 0 edges edges)
    have hcoll := triFrom_collisions edges edges 0
    have hsum : ∑ j in Finset.range N,
          (edges.filter (fun e => e.1 = j)).length * indeg edges j
        = ∑ j in Finset.range N, indeg edges j * outdeg edges j :=
      Finset.sum_congr rfl (fun j _ => by rw [outdeg, Nat.mul_comm])
    have : (getTriplets edges).length
          + ((triFrom 0 edges edges).filter (fun t => t.ti = t.tk)).length
        = (triFrom 0 edges edges).length := hsplit
    rw [hlen, hgroup, hsum] at this
    rw [numCollisions, ← hcoll]
    omega

/-- C1 witness: the 3-atom chain A–B–C with edges A→B, B→A, B→C, C→B over
`N = 3` nodes. -/
theorem getTriplets_char_and_count_inst :
    (getTriplets [(0, 1), (1, 0), (1, 2), (2, 1)]).length =
      (∑ j in Finset.range 3,
        indeg [(0, 1), (1, 0), (1, 2), (2, 1)] j
          * outdeg [(0, 1), (1, 0), (1, 2), (2, 1)] j)
        - numCollisions [(0, 1), (1, 0), (1, 2), (2, 1)] :=
  (getTriplets_char_and_count [(0, 1), (1, 0), (1, 2), (2, 1)] 3
    (by decide)).2

/-- C2: the emitted arrays of `get_triplets` are index-aligned: for every
retained triplet, the input edge at index `edge_idx_kj` is the edge
`(triple_idx_k → triple_idx_j)` and the input edge at index `edge_idx_ji`
is the edge `(triple_idx_j → triple_idx_i)`. -/
theorem getTriplets_alignment (edges : List (ℕ × ℕ)) (t : Tri)
    (ht : t ∈ getTriplets edges) :
    edges.get? t.ekj = some (t.tk, t.tj) ∧
      edges.get? t.eji = some (t.tj, t.ti) :=
  ⟨((mem_getTriplets edges t).1 ht).2.1, ((mem_getTriplets edges t).1 ht).1⟩

/-- C2 witness: the first triplet emitted on the 3-atom chain. -/
theorem getTriplets_alignment_inst :
    [(0, 1), (1, 0), (1, 2), (2, 1)].get? 3 = some (2, 1) ∧
      [(0, 1), (1, 0), (1, 2), (2, 1)].get? 1 = some (1, 0) :=
  getTriplets_alignment [(0, 1), (1, 0), (1, 2), (2, 1)] ⟨0, 1, 2, 3, 1⟩
    (by decide)

theorem mem_tripletNodes (edges : List (ℕ × ℕ)) (p : ℕ × ℕ × ℕ) :
    p ∈ tripletNodes edges ↔
      (p.2.2, p.2.1) ∈ edges ∧ (p.2.1, p.1) ∈ edges ∧ p.1 ≠ p.2.2 := by
  unfold tripletNodes
  rw [List.mem_toFinset, List.mem_map]
  constructor
  · rintro ⟨t, ht, rfl⟩
    obtain ⟨h1, h2, h3⟩ := (mem_getTriplets edges t).1 ht
    exact ⟨List.get?_mem h2, List.get?_mem h1, h3⟩
  · rintro ⟨hkj, hji, hne⟩
    obtain ⟨mkj, hmkj⟩ := List.get?_of_mem hkj
    obtain ⟨mji, hmji⟩ := List.get?_of_mem hji
    refine ⟨⟨p.1, p.2.1, p.2.2, mkj, mji⟩,
      (mem_getTriplets edges _).2 ⟨hmji, hmkj, hne⟩, ?_⟩
    simp

/-- C7: the set of `(i, j, k)` node triples emitted by `get_triplets` is
invariant under permutation of the input edge list. -/
theorem getTriplets_perm_inv (edges1 edges2 : List (ℕ × ℕ))
    (hp : edges1.Perm edges2) :
    tripletNodes edges1 = tripletNodes edges2 := by
  ext p
  rw [mem_tripletNodes, mem_tripletNodes, hp.mem_iff, hp.mem_iff]

/-- C7 witness: the 3-atom chain edge list and a reordering of it. -/
theorem getTriplets_perm_inv_inst :
    tripletNodes [(0, 1), (1, 0), (1, 2), (2, 1)] =
      tripletNodes [(2, 1), (1, 2), (1, 0), (0, 1)] :=
  getTriplets_perm_inv [(0, 1), (1, 0), (1, 2), (2, 1)]
    [(2, 1), (1, 2), (1, 0), (0, 1)] (by decide)

/-- C5: `calc_atomic_distances` returns the Euclidean norm of the
displacement `position[target] − position[source] + shift·lattice[batch of
source]`; with an all-zero shift vector on an edge it is exactly the
Euclidean distance between the target and source positions. -/
theorem calc_atomic_distances_spec (pos : ℕ → EuclideanSpace ℝ (Fin 3))
    (lattice : ℕ → Fin 3 → Fin 3 → ℝ) (shift : ℕ → Fin 3 → ℝ)
    (batch : ℕ → ℕ) (src tgt : ℕ → ℕ) (e : ℕ) :
    calc_atomic_distances pos lattice shift batch src tgt e
        = ‖(WithLp.equiv 2 (Fin 3 → ℝ)).symm
            (edgeVec pos lattice shift batch src tgt e)‖
      ∧ ((∀ r, shift e r = 0) →
          calc_atomic_distances pos lattice shift batch src tgt e
            = dist (pos (tgt e)) (pos (src e))) := by
  constructor
  · rw [EuclideanSpace.norm_eq, calc_atomic_distances]
    congr 1
    refine Finset.sum_congr rfl (fun c _ => ?_)
    rw [WithLp.equiv_symm_pi_apply, Real.norm_eq_abs, sq_abs]
  · intro hs
    rw [EuclideanSpace.dist_eq, calc_atomic_distances]
    congr 1
    refine Finset.sum_congr rfl (fun c _ => ?_)
    rw [Real.dist_eq, sq_abs, edgeVec]
    simp [hs]

/-- C5 witness: node 0 at the origin, node 1 at `(3, 4, 0)`, one edge
`0 → 1` with zero shift and a nonzero lattice; the distance is `5`. -/
theorem calc_atomic_distances_inst :
    calc_atomic_distances
      (fun n => (WithLp.equiv 2 (Fin 3 → ℝ)).symm
        (fun c => if n = 0 then 0 else if c.val = 0 then 3 else if c.val = 1 then 4 else 0))
      (fun _ _ _ => 7) (fun _ _ => 0) (fun _ => 0) (fun _ => 0) (fun _ => 1)
      0 = 5 := by
  rw [(calc_atomic_distances_spec
    (fun n => (WithLp.equiv 2 (Fin 3 → ℝ)).symm
      (fun c => if n = 0 then 0 else if c.val = 0 then 3 else if c.val = 1 then 4 else 0))
    (fun _ _ _ => 7) (fun _ _ => 0) (fun _ => 0) (fun _ => 0) (fun _ => 1)
    0).2 (fun r => rfl)]
  rw [EuclideanSpace.dist_eq, Fin.sum_univ_three]
  simp only [WithLp.equiv_symm_pi_apply, Fin.val_zero, Fin.val_one, Fin.val_two]
  norm_num [Real.dist_eq]
  rw [show (25 : ℝ) = 5 ^ 2 by norm_num, Real.sqrt_sq (by norm_num)]

theorem setAdd_length (buf : List Vec) :
    ∀ (c : ℕ) (v : Vec), (setAdd buf c v).length = buf.length := by
  induction buf with
  | nil => intro c v; rfl
  | cons x xs ih =>
    intro c v
    match c with
    | 0 => rfl
    | c + 1 => simp [setAdd, ih c v]

theorem setAdd_getD (buf : List Vec) :
    ∀ (b c : ℕ) (v : Vec) (d : ℕ), b < buf.length →
      (setAdd buf c v).getD b vzero d
        = buf.getD b vzero d + (if c = b then v d else 0) := by
  induction buf with
  | nil => intro b c v d hb; simp at hb
  | cons x xs ih =>
    intro b c v d hb
    match c, b with
    | 0, 0 => simp [setAdd]
    | 0, b + 1 => simp [setAdd]
    | c + 1, 0 => simp [setAdd]
    | c + 1, b + 1 =>
      have hb2 : b < xs.length := by simpa using hb
      simp only [setAdd, List.getD_cons_succ]
      rw [ih b c v d hb2]
      simp [Nat.succ_inj]

theorem foldl_setAdd_length (l : List (ℕ × Vec)) :
    ∀ (buf : List Vec),
      (l.foldl (fun bu p => setAdd bu p.1 p.2) buf).length = buf.length := by
  induction l with
  | nil => intro buf; rfl
  | cons p ps ih => intro buf; rw [List.foldl_cons, ih, setAdd_length]

theorem foldl_setAdd_getD (l : List (ℕ × Vec)) :
    ∀ (buf : List Vec) (b d : ℕ), b < buf.length →
      (l.foldl (fun bu p => setAdd bu p.1 p.2) buf).getD b vzero d
        = buf.getD b vzero d
          + ((l.filter (fun p => p.1 = b)).map (fun p => p.2 d)).sum := by
  induction l with
  | nil => intro buf b d hb; simp
  | cons p ps ih =>
    intro buf b d hb
    rw [List.foldl_cons, ih (setAdd buf p.1 p.2) b d (by rw [setAdd_length]; exact hb),
      setAdd_getD buf b p.1 p.2 d hb]
    by_cases hp : p.1 = b
    · simp [List.filter_cons, hp]
      ring
    · simp [List.filter_cons, hp]

theorem getD_replicate_vzero (B : ℕ) :
    ∀ b : ℕ, (List.replicate B vzero).getD b vzero = vzero := by
  induction B with
  | zero => intro b; simp
  | succ B ih =>
    intro b
    match b with
    | 0 => rfl
    | b + 1 => simp [List.replicate]

theorem scatterSum_length (vals : List Vec) (idx : List ℕ) (B : ℕ) :
    (scatterSum vals idx B).length = B := by
  rw [scatterSum, foldl_setAdd_length, List.length_replicate]

theorem scatterSum_getD (vals : List Vec) (idx : List ℕ) (B b d : ℕ)
    (hb : b < B) :
    (scatterSum vals idx B).getD b vzero d
      = (((idx.zip vals).filter (fun p => p.1 = b)).map (fun p => p.2 d)).sum := by
  rw [scatterSum, foldl_setAdd_getD _ _ b d (by simpa using hb)]
  simp [getD_replicate_vzero, vzero]

theorem sum_map_const_one {α : Type} (l : List α) :
    (l.map (fun _ => (1 : ℚ))).sum = (l.length : ℚ) := by
  induction l with
  | nil => simp
  | cons a l ih => simp [ih]; ring

theorem getD_map_zip (g : Vec × Vec → Vec) (s : List Vec) :
    ∀ (c : List Vec) (b : ℕ), b < s.length → b < c.length →
      ((s.zip c).map g).getD b vzero = g (s.getD b vzero, c.getD b vzero) := by
  induction s with
  | nil => intro c b hb; simp at hb
  | cons x xs ih =>
    intro c b hb hc
    match c, b with
    | y :: ys, 0 => rfl
    | y :: ys, b + 1 =>
      simp only [List.zip_cons_cons, List.map_cons, List.getD_cons_succ]
      exact ih ys b (by simpa using hb) (by simpa using hc)

theorem scatterMean_getD (vals : List Vec) (idx : List ℕ) (B b d : ℕ)
    (hb : b < B) :
    (scatterMean vals idx B).getD b vzero d
      = (((idx.zip vals).filter (fun p => p.1 = b)).map (fun p => p.2 d)).sum
        / max 1 ((((idx.zip vals).filter (fun p => p.1 = b)).length : ℚ)) := by
  have hcount : (scatterSum (vals.map (fun _ => fun _ => (1 : ℚ))) idx B).getD b vzero d
      = (((idx.zip vals).filter (fun p => p.1 = b)).length : ℚ) := by
    rw [scatterSum_getD _ _ _ _ d hb, List.zip_map_right, List.filter_map,
      List.map_map]
    have hpred : (fun p : ℕ × Vec => decide (p.1 = b)) ∘ Prod.map id (fun _ => fun _ => (1 : ℚ))
        = fun p : ℕ × Vec => decide (p.1 = b) := rfl
    rw [hpred]
    have hconst : ((fun p : ℕ × Vec => p.2 d) ∘ Prod.map id (fun _ => fun _ => (1 : ℚ)))
        = fun _ : ℕ × Vec => (1 : ℚ) := rfl
    rw [hconst, sum_map_const_one]
  unfold scatterMean
  rw [getD_map_zip _ _ _ b (by rw [scatterSum_length]; exact hb)
    (by rw [scatterSum_length]; exact hb)]
  dsimp only
  rw [scatterSum_getD _ _ _ _ d hb]
  rw [show (scatterSum (vals.map (fun _ => fun _ => (1 : ℚ))) idx B).getD b vzero d
    = (((idx.zip vals).filter (fun p => p.1 = b)).length : ℚ) from hcount]

/-- C9: the output layer reduces per structure keyed by batch id — row `b`
of the result is the sum (extensive) or count-clamped mean (intensive) of
`out_lin` applied to exactly the nodes whose batch id is `b` — with one row
per structure (`B = max batch id + 1`), and with no batch assignment it
reduces all nodes into a single row (`B = 1`). -/
theorem LCAOOut_forward_spec (outLin : Vec → Vec) (x : List Vec) (ext : Bool)
    (bidx : List ℕ) (B : ℕ) (hB : B = dimSizeTorch bidx) :
    (LCAOOut_forward outLin x (some bidx) ext).length = B ∧
    (∀ b, b < B → ∀ d,
      (LCAOOut_forward outLin x (some bidx) ext).getD b vzero d =
        if ext then
          (((bidx.zip (x.map outLin)).filter (fun p => p.1 = b)).map
            (fun p => p.2 d)).sum
        else
          (((bidx.zip (x.map outLin)).filter (fun p => p.1 = b)).map
            (fun p => p.2 d)).sum
          / max 1 ((((bidx.zip (x.map outLin)).filter (fun p => p.1 = b)).length : ℚ))) ∧
    (LCAOOut_forward outLin x none ext).length = 1 ∧
    (∀ d, (LCAOOut_forward outLin x none ext).getD 0 vzero d =
      if ext then ((x.map outLin).map (fun v => v d)).sum
      else ((x.map outLin).map (fun v => v d)).sum / (x.length : ℚ)) := by
  subst hB
  refine ⟨?_, ?_, ?_, ?_⟩
  · cases ext
    · show (scatterMean (x.map outLin) bidx (dimSizeTorch bidx)).length = _
      unfold scatterMean
      rw [List.length_map, List.length_zip, scatterSum_length,
        scatterSum_length, Nat.min_self]
    · exact scatterSum_length (x.map outLin) bidx (dimSizeTorch bidx)
  · intro b hb d
    cases ext
    · simp only [LCAOOut_forward, Bool.false_eq_true, if_false]
      exact scatterMean_getD (x.map outLin) bidx _ b d hb
    · simp only [LCAOOut_forward, if_true]
      exact scatterSum_getD (x.map outLin) bidx _ b d hb
  · cases ext <;> rfl
  · intro d; cases ext <;> rfl

/-- C9 witness: two nodes in one structure (`batch_idx = [0, 0]`), identity
output MLP, extensive reduction: the single structure row sums both nodes. -/
theorem LCAOOut_forward_inst :
    (LCAOOut_forward (fun v => v) [fun _ => 2, fun _ => 3]
      (some [0, 0]) true).getD 0 vzero 0 = 5 := by
  have h := LCAOOut_forward_spec (fun v => v) [fun _ => 2, fun _ => 3] true
    [0, 0] 1 (by rfl)
  rw [h.2.1 0 (by norm_num) 0]
  norm_num [List.zip, List.zipWith, List.filter]

/-- C3 (code defect): on a single isolated atom with no edges, the
interaction layer returns an *empty* batch of node embeddings (0 rows)
instead of the unchanged input embedding: the final
`scatter(..., idx_i, dim=0)` is called without `dim_size`, so on the empty
`idx_i` it produces a 0-row tensor, and broadcasting `(1, H) + (0, H)`
yields `(0, H)` — contradicting the layer's documented `(N, hidden_dim)`
output shape and the spec's residual-passthrough requirement. -/
theorem LCAOInteraction_isolated_atom :
    LCAOInteraction_forward Ptriv [fun _ => 1] [] none none [] [] [] [] [] [] []
        = Except.ok [] ∧
      ([] : List Vec).length ≠ ([fun _ => 1] : List Vec).length := by
  exact ⟨rfl, by decide⟩

/-- C6: calling the interaction layer with `add_valence = True` and
`valence_mask = None` fails with the configuration `ValueError` raised
before any computation stage, for every input. -/
theorem LCAOInteraction_missing_mask (P : LCAOInteractionP) (x : List Vec)
    (cji : List (List Vec)) (valenceMask : Option (List (List Vec)))
    (cutoffW : Option (List ℚ)) (rb : List (List ℚ)) (shb : List (List ℚ))
    (idxI idxJ : List ℕ) (triIdxK edgeIdxKj edgeIdxJi : List ℕ)
    (hav : P.addValence = true) (hvm : valenceMask = none) :
    LCAOInteraction_forward P x cji valenceMask cutoffW rb shb idxI idxJ
        triIdxK edgeIdxKj edgeIdxJi
      = Except.error "valence_mask must be provided when add_valence=True" := by
  subst hvm
  simp [LCAOInteraction_forward, hav]

/-- C6 witness: a concrete call with `add_valence = true` and a missing
mask. -/
theorem LCAOInteraction_missing_mask_inst :
    LCAOInteraction_forward
        ⟨1, true, fun v => (v, v), fun v => v, fun v => v, fun v => v,
          fun a b => fun d => a d + b d, fun v => v, fun q => q, fun v => v⟩
        [fun _ => 1] [] none none [] [] [] [] [] [] []
      = Except.error "valence_mask must be provided when add_valence=True" :=
  LCAOInteraction_missing_mask _ _ _ _ _ _ _ _ _ _ _ _ rfl rfl

theorem getD_map_of_get? {α β : Type} (f : α → β) (l : List α) (n : ℕ) (a : α)
    (d : β) (h : l.get? n = some a) : (l.map f).getD n d = f a := by
  rw [List.getD_eq_getD_get?, List.get?_map, h]
  rfl

theorem fE_zero (act : ℚ → ℚ) (W1 W2 : ℕ → ℕ → ℚ) (eDim hid : ℕ) (v : Vec)
    (hact : act 0 = 0) (hv : ∀ r, v r = 0) :
    ∀ c, fE act W1 W2 eDim hid v c = 0 := by
  intro c
  have h1 : ∀ c2, denseLayer W1 none eDim v c2 = 0 := by
    intro c2
    rw [denseLayer]
    rw [Finset.sum_eq_zero (fun r _ => by rw [hv r, mul_zero])]
    norm_num
  have h2 : ∀ c2, mapAct act (denseLayer W1 none eDim v) c2 = 0 := by
    intro c2; rw [mapAct, h1 c2, hact]
  have h3 : ∀ c2, denseLayer W2 none hid (mapAct act (denseLayer W1 none eDim v)) c2 = 0 := by
    intro c2
    rw [denseLayer]
    rw [Finset.sum_eq_zero (fun r _ => by rw [h2 r, mul_zero])]
    norm_num
  rw [fE, mapAct, h3 c, hact]

/-- C4: if the target atom's electron embedding at some orbital channel is
the all-zero vector, then the `EmbedCoeffs` output
`e + e ⊙ gate` for that edge and channel is exactly the zero vector,
whatever the gate computed from the atomic-number embeddings is (any
`f_z` weights and biases): `f_e` is bias-free and the activation fixes
zero, so `e = f_e(0) = 0`. -/
theorem EmbedCoeffs_zero_elec (act : ℚ → ℚ) (Wa Wb : ℕ → ℕ → ℚ)
    (ba bb : ℕ → ℚ) (W1 W2 : ℕ → ℕ → ℚ) (zDim eDim hid : ℕ)
    (zEmbed : List Vec) (eEmbed : List (List Vec)) (idxI idxJ : List ℕ)
    (t o iA jA : ℕ) (ev : Vec)
    (hact : act 0 = 0)
    (ht : (idxI.zip idxJ).get? t = some (iA, jA))
    (ho : (eEmbed.getD jA []).get? o = some ev)
    (hz : ∀ r, ev r = 0) :
    ∃ v : Vec,
      ((EmbedCoeffs_forward act Wa Wb ba bb W1 W2 zDim eDim hid zEmbed eEmbed
          idxI idxJ).getD t []).get? o = some v ∧ ∀ c, v c = 0 := by
  rw [EmbedCoeffs_forward]
  rw [getD_map_of_get? _ _ t (iA, jA) [] ht]
  have heT : (eEmbed.map (fun row => row.map (fE act W1 W2 eDim hid))).getD jA []
      = (eEmbed.getD jA []).map (fE act W1 W2 eDim hid) := by
    rw [List.getD_eq_getD_get?, List.get?_map, List.getD_eq_getD_get?]
    cases eEmbed.get? jA with
    | none => rfl
    | some row => rfl
  simp only
  rw [heT, List.get?_map, List.get?_map, ho]
  refine ⟨_, rfl, fun c => ?_⟩
  dsimp only
  rw [fE_zero act W1 W2 eDim hid ev hact hz c]
  ring

/-- C4 witness: one edge `0 → 0`, one orbital channel with a zero electron
embedding, identity activation and all-ones weights/biases: the output
channel vector is zero at every coordinate (coordinate 5 shown). -/
theorem EmbedCoeffs_zero_elec_inst :
    ∃ v : Vec,
      ((EmbedCoeffs_forward (fun q => q) (fun _ _ => 1) (fun _ _ => 1)
          (fun _ => 1) (fun _ => 1) (fun _ _ => 1) (fun _ _ => 1) 1 1 1
          [fun _ => 7] [[fun _ => 0]] [0] [0]).getD 0 []).get? 0 = some v
        ∧ ∀ c, v c = 0 :=
  EmbedCoeffs_zero_elec (fun q => q) (fun _ _ => 1) (fun _ _ => 1)
    (fun _ => 1) (fun _ => 1) (fun _ _ => 1) (fun _ _ => 1) 1 1 1
    [fun _ => 7] [[fun _ => 0]] [0] [0] 0 0 0 0 (fun _ => 0)
    rfl rfl rfl (fun _ => rfl)

/-- C10: with `extend_orb = False`, every orbital slot whose ground-state
electron occupation for the atom's atomic number is zero embeds to exactly
the zero vector: occupation index `0` is the padding index, whose row is
forced to zero at every parameter reset. -/
theorem EmbedElec_zero_occupation (w : ℕ → ℕ → Vec) (elec : ℕ → ℕ → ℕ)
    (nOrb : ℕ) (z : List ℕ) (n o zn : ℕ)
    (hn : z.get? n = some zn) (ho : o < nOrb) (hocc : elec zn o = 0) :
    ((EmbedElec_forward nOrb elec (embedElecReset false w) z).getD n
      []).getD o vzero = vzero := by
  rw [EmbedElec_forward, getD_map_of_get? _ _ n zn [] hn,
    getD_map_of_get? _ _ o o vzero (List.get?_range ho), hocc, embedElecReset]
  simp

/-- C10 witness: one atom whose single orbital has occupation `0`; despite
nonzero freshly-initialised weights the embedding row is zero. -/
theorem EmbedElec_zero_occupation_inst :
    ((EmbedElec_forward 1 (fun _ _ => 0)
      (embedElecReset false (fun _ _ => fun _ => 9)) [5]).getD 0 []).getD 0 vzero
      = vzero :=
  EmbedElec_zero_occupation (fun _ _ => fun _ => 9) (fun _ _ => 0) 1 [5] 0 0 5
    rfl (by norm_num) rfl

/-- C8: for every configuration with a cutoff network and no cutoff radius,
construction fails fast with the configuration error. -/
theorem LCAONet_init_cutoff (cutoffNet : Option String) (cutoff : Option ℚ)
    (hcn : cutoffNet.isSome = true) (hc : cutoff = none) :
    LCAONet_init_check cutoffNet cutoff
      = Except.error "cutoff must be specified when cutoff_net is used" := by
  subst hc
  simp [LCAONet_init_check, hcn]

/-- C8 witness: the `"cosine"` cutoff network with `cutoff = None`. -/
theorem LCAONet_init_cutoff_inst :
    LCAONet_init_check (some "cosine") none
      = Except.error "cutoff must be specified when cutoff_net is used" :=
  LCAONet_init_cutoff (some "cosine") none rfl rfl
